import Mathlib

/-!
Verification of `packages/utils/src/internals/cheerio.ts`: the plain-text
extractor `htmlToText` and the link extractor `extractUrlsFromCheerio`.

The HTML parser (cheerio) is an external collaborator: we model its output,
a parsed DOM tree, as the inductive type `Node` below, and both functions as
pure Lean functions over that tree, following the TypeScript line by line.
Strings are modelled as `List Char` where character-level reasoning matters.
-/

namespace Cheerio

/-- A parsed DOM node, as the traversal in `cheerio.ts` consumes it:
a text node carries raw character data (`elem.data`), a comment carries its
text (always skipped), and an element carries its tag name and ordered
children.  The `parent` pointer that the source reads on text nodes
(`elem.parent.tagName === 'pre'`) is supplied during traversal as the tag of
the enclosing element. -/
inductive Node where
  | text (data : List Char)
  | comment (data : List Char)
  | elem (tag : String) (children : List Node)

/-- JavaScript regex class `\s`: ASCII whitespace plus the Unicode space
separators, as used by `/\s+/g`, `/(^|\s)$/` and `String.prototype.trim`. -/
def isWsC (c : Char) : Bool :=
  c = ' ' || c = '\t' || c = '\n' || c = '\r' || c = '\x0b' || c = '\x0c' ||
  c = '\u00a0' || c = '\u1680' ||
  ('\u2000' ≤ c && c ≤ '\u200a') ||
  c = '\u2028' || c = '\u2029' || c = '\u202f' || c = '\u205f' ||
  c = '\u3000' || c = '\ufeff'

/-- `elem.data.replace(/\s+/g, ' ')`: every maximal run of whitespace
characters is replaced by a single space. -/
def collapseWs : List Char → List Char
  | [] => []
  | [c] => if isWsC c then [' '] else [c]
  | c1 :: c2 :: t =>
    if isWsC c1 && isWsC c2 then collapseWs (c2 :: t)
    else (if isWsC c1 then ' ' else c1) :: collapseWs (c2 :: t)

/-- `/(^|\s)$/.test(text)`: the accumulated text is empty or its last
character is whitespace. -/
def endsWsOrEmpty (t : List Char) : Bool :=
  match t.getLast? with
  | none => true
  | some c => isWsC c

/-- `/(^|\n)$/.test(text)`: the accumulated text is empty or ends in a
newline. -/
def endsNlOrEmpty (t : List Char) : Bool :=
  match t.getLast? with
  | none => true
  | some c => c = '\n'

/-- `text.endsWith('\n')`. -/
def endsNl (t : List Char) : Bool :=
  match t.getLast? with
  | none => false
  | some c => c = '\n'

/-- ASCII case-folding of a character, the effect the `i` regex flag has on
the ASCII-only alternatives of the two tag regexes. -/
def lowerC (c : Char) : Char :=
  if 'A' ≤ c && c ≤ 'Z' then Char.ofNat (c.toNat + 32) else c

/-- A tag name case-folded to lowercase, as a character list. -/
def lowerTag (t : String) : List Char :=
  t.data.map lowerC

/-- `SKIP_TAGS_REGEX = /^(script|style|canvas|svg|noscript)$/i`. -/
def isSkipTag (tag : String) : Bool :=
  lowerTag tag ∈ ["script".data, "style".data, "canvas".data, "svg".data,
    "noscript".data]

/-- `BLOCK_TAGS_REGEX`, a case-insensitive full match of the tag name. -/
def isBlockTag (tag : String) : Bool :=
  lowerTag tag ∈ ["p".data, "h1".data, "h2".data, "h3".data, "h4".data,
    "h5".data, "h6".data, "ol".data, "ul".data, "li".data, "pre".data,
    "address".data, "blockquote".data, "dl".data, "div".data,
    "fieldset".data, "form".data, "table".data, "tr".data, "select".data,
    "option".data]

/-- The text-node branch of `process`: compress whitespace unless the parent
element is a `pre`, then drop a leading space when the accumulated text is
empty or already ends in whitespace, and append. -/
def emitText (parentTag : Option String) (acc : List Char) (d : List Char) :
    List Char :=
  let compr := if parentTag = some "pre" then d else collapseWs d
  let compr :=
    if compr.take 1 = [' '] && endsWsOrEmpty acc then compr.drop 1 else compr
  acc ++ compr

mutual

/-- One iteration of the `for` loop in `process`: dispatch on the node kind
exactly as the `if`/`else if` chain in the source does, threading the
mutable `text` accumulator explicitly. -/
def processNode (parentTag : Option String) (acc : List Char) :
    Node → List Char
  | .text d => emitText parentTag acc d
  | .comment _ => acc
  | .elem tag children =>
    if isSkipTag tag then acc
    else if tag = "br" then acc ++ ['\n']
    else if tag = "td" then processList (some tag) acc children ++ ['\t']
    else
      let isBlock := isBlockTag tag
      let acc1 := if isBlock && !endsNlOrEmpty acc then acc ++ ['\n'] else acc
      let acc2 := processList (some tag) acc1 children
      if isBlock && !endsNl acc2 then acc2 ++ ['\n'] else acc2

/-- The `process` function of `htmlToText`: left-to-right over the sibling
list, accumulating into `text`. -/
def processList (parentTag : Option String) (acc : List Char) :
    List Node → List Char
  | [] => acc
  | n :: rest => processList parentTag (processNode parentTag acc n) rest

end

/-- `String.prototype.trim`: whitespace stripped from both ends. -/
def trimWs (s : List Char) : List Char :=
  ((s.dropWhile isWsC).reverse.dropWhile isWsC).reverse

/-- `htmlToText`: process the root node list (the `body` element when the
document has one, otherwise the document roots — the selection itself is
cheerio's, outside this core) and trim the result.  Parsing of an HTML
string into the tree is likewise the external parser's job; the model takes
the tree. -/
def htmlToText (roots : List Node) : List Char :=
  trimWs (processList none [] roots)

/-! ### Derived notions used to state properties of `htmlToText` -/

/-- `pat` is a prefix of `s` (character-by-character). -/
def startsSeq : List Char → List Char → Bool
  | [], _ => true
  | _ :: _, [] => false
  | p :: ps, c :: cs => p = c && startsSeq ps cs

/-- `s` contains `pat` as a contiguous substring. -/
def containsSeq (pat : List Char) : List Char → Bool
  | [] => startsSeq pat []
  | c :: cs => startsSeq pat (c :: cs) || containsSeq pat cs

/-- The output contains two consecutive newline characters. -/
def hasNN : List Char → Bool
  | [] => false
  | [_] => false
  | a :: b :: t => (a = '\n' && b = '\n') || hasNN (b :: t)

mutual

/-- Character data of all text nodes below a node, in document order. -/
def textDataN : Node → List Char
  | .text d => d
  | .comment _ => []
  | .elem _ cs => textDataL cs

/-- Character data of all text nodes of a node list, in document order
(depth-first, left-to-right). -/
def textDataL : List Node → List Char
  | [] => []
  | n :: rest => textDataN n ++ textDataL rest

end

mutual

/-- Every element tag in the tree satisfies `p`. -/
def allTagsN (p : String → Bool) : Node → Bool
  | .text _ => true
  | .comment _ => true
  | .elem t cs => p t && allTagsL p cs

/-- Every element tag in the forest satisfies `p`. -/
def allTagsL (p : String → Bool) : List Node → Bool
  | [] => true
  | n :: rest => allTagsN p n && allTagsL p rest

end

mutual

/-- Every text node's data in the tree satisfies `p`. -/
def allTextN (p : List Char → Bool) : Node → Bool
  | .text d => p d
  | .comment _ => true
  | .elem _ cs => allTextL p cs

/-- Every text node's data in the forest satisfies `p`. -/
def allTextL (p : List Char → Bool) : List Node → Bool
  | [] => true
  | n :: rest => allTextN p n && allTextL p rest

end

/-- The list ends in a space character. -/
def endsSpace (l : List Char) : Bool :=
  match l.getLast? with
  | none => false
  | some c => c = ' '

/-- Append of already-collapsed strings, merging a space boundary: when the
left part ends in a space and the right part starts with one, the two
spaces fuse into one.  `collapseWs` is a homomorphism onto this operation. -/
def wsMerge (x y : List Char) : List Char :=
  x ++ (if endsSpace x && y.take 1 = [' '] then y.drop 1 else y)

/-! ### The link extractor `extractUrlsFromCheerio`

The cheerio querying (`$('base').attr('href')`, `$(selector)...attr('href')`)
is the external parser's job; the model receives its results directly: the
`href` attribute of the first `base` element (`none` when absent) and the
list of `href` attributes of the elements matched by the selector, in
document order (`none` for an element without the attribute). -/

/-- `/^[a-z][a-z0-9+.-]*:/` applied at the head of a character list:
after the leading lowercase letter, scheme characters may continue until a
colon completes the match. -/
def schemeTail : List Char → Bool
  | [] => false
  | c :: rest =>
    c = ':' ||
      ((('a' ≤ c && c ≤ 'z') || ('0' ≤ c && c ≤ '9') ||
        c = '+' || c = '.' || c = '-') && schemeTail rest)

/-- `/^[a-z][a-z0-9+.-]*:/.test(href)` — the absolute-URL check of the
source (case-sensitive: only lowercase letters, no `i` flag). -/
def isHrefAbsoluteL : List Char → Bool
  | [] => false
  | c :: rest => ('a' ≤ c && c ≤ 'z') && schemeTail rest

/-- The absolute-URL check on strings. -/
def isHrefAbsolute (s : String) : Bool :=
  isHrefAbsoluteL s.toList

/-- Modelled from the spec: `tryAbsoluteURL` lives in
`internals/extract-urls.ts`, which is not among the sources; the spec
describes it as the URL Resolution Utility that, "given a possibly-relative
reference and a base URL, returns an absolute URL or a falsy/error result on
failure".  An already-absolute reference resolves to itself; a relative
reference resolves against an absolute base (the join itself is opaque to
every claim, so plain concatenation stands in for it); otherwise resolution
fails. -/
def tryAbsoluteURL (url baseUrl : String) : Option String :=
  if isHrefAbsolute url then some url
  else if isHrefAbsolute baseUrl then some (baseUrl ++ url) else none

/-- The error thrown for a relative URL with no base URL available
(`cheerio.ts` line 112). -/
def relativeUrlError (href : String) : String :=
  "An extracted URL: " ++ href ++ " is relative and baseUrl is not set. " ++
    "Provide a baseUrl to automatically resolve relative URLs."

/-- Lines 97–102: `const base = $('base').attr('href'); const
absoluteBaseUrl = base && tryAbsoluteURL(base, baseUrl); if
(absoluteBaseUrl) baseUrl = absoluteBaseUrl;` — JavaScript truthiness makes
a missing or empty `base` href, a failed resolution, and an empty
resolution all leave `baseUrl` unchanged. -/
def effectiveBaseUrl (baseHref : Option String) (baseUrl : String) : String :=
  match baseHref with
  | none => baseUrl
  | some b =>
    if b = "" then baseUrl
    else
      match tryAbsoluteURL b baseUrl with
      | none => baseUrl
      | some r => if r = "" then baseUrl else r

/-- Lines 105–107: collect the `href` attribute of every matched element and
drop missing (`undefined`) and empty values (`filter(Boolean)`). -/
def collectHrefs (hrefAttrs : List (Option String)) : List String :=
  (hrefAttrs.filterMap id).filter (fun h => h != "")

/-- Lines 108–118, one href: throw when the href is not absolute and no base
URL is available, otherwise resolve against the base URL when one is set and
pass the href through when none is. -/
def resolveHref (baseUrl href : String) : Except String (Option String) :=
  if !isHrefAbsolute href && baseUrl = "" then .error (relativeUrlError href)
  else .ok (if baseUrl = "" then some href else tryAbsoluteURL href baseUrl)

/-- The eager `.map` over all collected hrefs: the first throw aborts the
whole call, discarding every already-computed entry. -/
def resolveAll (baseUrl : String) : List String → Except String (List (Option String))
  | [] => .ok []
  | h :: t =>
    match resolveHref baseUrl h with
    | .error e => .error e
    | .ok r =>
      match resolveAll baseUrl t with
      | .error e => .error e
      | .ok rs => .ok (r :: rs)

/-- `extractUrlsFromCheerio`: base-element override, collection, per-link
resolution, and the final `filter(Boolean)` dropping failed (`undefined`)
and empty resolutions. -/
def extractUrlsFromCheerio (baseHref : Option String)
    (hrefAttrs : List (Option String)) (baseUrl : String) :
    Except String (List String) :=
  let b := effectiveBaseUrl baseHref baseUrl
  match resolveAll b (collectHrefs hrefAttrs) with
  | .error e => .error e
  | .ok rs => .ok ((rs.filterMap id).filter (fun h => h != ""))

/-- The spec's wording of the absolute-URL classification, as a predicate:
the href "begins with a letter, followed by zero or more letters, digits,
'+', '.', or '-' characters, followed by ':'" — with "letter" read as any
ASCII letter, either case. -/
def SchemePrefixed (s : List Char) : Prop :=
  ∃ (c : Char) (mid rest : List Char),
    s = c :: (mid ++ ':' :: rest) ∧
    (('a' ≤ c ∧ c ≤ 'z') ∨ ('A' ≤ c ∧ c ≤ 'Z')) ∧
    ∀ x ∈ mid, ('a' ≤ x ∧ x ≤ 'z') ∨ ('A' ≤ x ∧ x ≤ 'Z') ∨
      ('0' ≤ x ∧ x ≤ '9') ∨ x = '+' ∨ x = '.' ∨ x = '-'

/-- The same shape restricted to lowercase letters: what the source's
case-sensitive regex actually recognises. -/
def SchemePrefixedLower (s : List Char) : Prop :=
  ∃ (c : Char) (mid rest : List Char),
    s = c :: (mid ++ ':' :: rest) ∧
    ('a' ≤ c ∧ c ≤ 'z') ∧
    ∀ x ∈ mid, ('a' ≤ x ∧ x ≤ 'z') ∨
      ('0' ≤ x ∧ x ≤ '9') ∨ x = '+' ∨ x = '.' ∨ x = '-'

/-- The parse tree of `'<table><tr><td>A</td><td>B</td></tr></table>'` as
the external parser produces it: the fragment is wrapped in a `body` (the
traversal starts at `$('body')`) and HTML parsing inserts `tbody` between
`table` and `tr`. -/
def tableRowDoc : List Node :=
  [Node.elem "body" [Node.elem "table" [Node.elem "tbody" [Node.elem "tr"
    [Node.elem "td" [Node.text ['A']], Node.elem "td" [Node.text ['B']]]]]]]

/-- A document with only inline (non-block, non-skip) elements, among them
a `br`: `<i> a<br>b</i>`. -/
def inlineBrDoc : List Node :=
  [Node.elem "i" [Node.text [' ', 'a'], Node.elem "br" [], Node.text ['b']]]

/-- A matched element that contributes to the collected href list: the
attribute is present and non-empty (JavaScript truthiness of
`filter(Boolean)` after the attribute read). -/
def presentNonEmpty : Option String → Bool
  | none => false
  | some h => h != ""

/-- A tag that triggers none of the traversal's special branches: not in
the skip set, not in the block set, and neither a `br` nor a `td`. -/
def plainTag (t : String) : Bool :=
  !(isBlockTag t || isSkipTag t || lowerTag t == "br".data ||
    lowerTag t == "td".data)

/-- Emission of one already-collapsed chunk into the accumulator: the
leading space is dropped when the accumulator is empty or ends in
whitespace.  `emitText` is this applied to the (possibly collapsed) text
data. -/
def emitChunk (acc c : List Char) : List Char :=
  acc ++ (if c.take 1 = [' '] && endsWsOrEmpty acc then c.drop 1 else c)

/-- Every whitespace character of the list is a plain space — the shape of
every collapsed chunk and of every accumulator the traversal builds from
them. -/
def spacesOnly (l : List Char) : Bool :=
  l.all (fun c => !isWsC c || c = ' ')

/-- The list starts with a newline character. -/
def headNl : List Char → Bool
  | [] => false
  | c :: _ => c = '\n'

/-- The tag is not a `pre` tag (in any letter case). -/
def noPreTag (t : String) : Bool :=
  lowerTag t != "pre".data

/-- The tag is not a `br` tag (in any letter case). -/
def noBrTag (t : String) : Bool :=
  lowerTag t != "br".data

/-!
## Theorems

Claim theorems are marked with their claim id; the remaining lemmas are
shared infrastructure.
-/

theorem processList_nil (pt : Option String) (acc : List Char) :
    processList pt acc [] = acc := by
  simp [processList]

theorem processList_cons (pt : Option String) (acc : List Char) (n : Node)
    (rest : List Node) :
    processList pt acc (n :: rest) = processList pt (processNode pt acc n) rest := by
  simp [processList]

theorem isSkipTag_br : isSkipTag "br" = false := by decide

/-- C10: in `htmlToText`, every `br` element appends exactly one newline to
the accumulated text, unconditionally — the accumulator is not inspected,
the element's children are not processed — so a run of `n` consecutive `br`
elements contributes exactly `n` consecutive newline characters.  The
single-newline collapsing belongs to the block-boundary branch only. -/
theorem br_run_appends_n_newlines (pt : Option String) (acc : List Char)
    (cs : List Node) (n : Nat) (rest : List Node) :
    processList pt acc (List.replicate n (Node.elem "br" cs) ++ rest) =
      processList pt (acc ++ List.replicate n '\n') rest := by
  induction n generalizing acc with
  | zero => simp
  | succ k ih =>
    rw [List.replicate_succ, List.cons_append, processList_cons]
    have hstep : processNode pt acc (Node.elem "br" cs) = acc ++ ['\n'] := by
      simp [processNode, isSkipTag_br]
    rw [hstep, ih, List.replicate_succ]
    simp

/-- C4 counterexample: on the parse tree of
`'<table><tr><td>A</td><td>B</td></tr></table>'`, the output of
`htmlToText` is exactly `"A\tB"`; it contains no occurrence of `"A\tB"`
followed by a line break, because the newline inserted at the `tr` block
boundary is the last character of the accumulated text and the final
`trim()` removes it. -/
theorem tableRow_no_newline_after_cells :
    containsSeq ['A', '\t', 'B', '\n'] (htmlToText tableRowDoc) = false := by
  decide

/-- C4 amended: `htmlToText` on the parse tree of
`'<table><tr><td>A</td><td>B</td></tr></table>'` returns exactly `"A\tB"` —
the `td` contents joined by a tab; the block-boundary newline appended
after the `tr` is stripped again by the final `trim()`. -/
theorem tableRow_output :
    htmlToText tableRowDoc = ['A', '\t', 'B'] ∧
      containsSeq ['A', '\t', 'B'] (htmlToText tableRowDoc) = true := by
  decide

theorem processNode_text (pt : Option String) (acc d : List Char) :
    processNode pt acc (Node.text d) = emitText pt acc d := by
  simp [processNode]

theorem emitText_eq (pt : Option String) (acc d : List Char) :
    emitText pt acc d =
      emitChunk acc (if pt = some "pre" then d else collapseWs d) :=
  rfl

/-- Emitting a chunk appends it whole, or appends it with exactly its
leading space removed. -/
theorem emitChunk_cases (acc c : List Char) :
    emitChunk acc c = acc ++ c ∨
      (c.take 1 = [' '] ∧ emitChunk acc c = acc ++ c.drop 1) := by
  rw [emitChunk]
  by_cases h : (c.take 1 = [' ']) ∧ endsWsOrEmpty acc = true
  · exact Or.inr ⟨h.1, by rw [if_pos (by simp [h.1, h.2])]⟩
  · refine Or.inl ?_
    rw [if_neg ?_]
    simp only [Bool.and_eq_true, decide_eq_true_eq]
    exact fun hc => h ⟨hc.1, hc.2⟩

/-- C3 counterexample: a text node `" x"` whose direct parent is a `pre`
element is not emitted byte-for-byte — its leading space is dropped by the
leading-whitespace suppression (the accumulated text is empty at that
point), so the output of `htmlToText` is `"x"` and the node's data `" x"`
appears nowhere in it. -/
theorem pre_text_loses_leading_space :
    htmlToText [Node.elem "pre" [Node.text [' ', 'x']]] = ['x'] ∧
      containsSeq [' ', 'x']
        (htmlToText [Node.elem "pre" [Node.text [' ', 'x']]]) = false := by
  decide

/-- C3 amended: a text node whose direct parent element is a `pre` element
is emitted with no whitespace collapsing, and with every character kept
except that a single leading space may be dropped (when the accumulated
output is empty or ends in whitespace); a text node elsewhere is emitted
whitespace-collapsed, under the same leading-space rule. -/
theorem pre_text_verbatim_others_collapsed (pt : Option String)
    (acc d : List Char) (rest : List Node) :
    (pt = some "pre" →
      processList pt acc (Node.text d :: rest) =
          processList pt (acc ++ d) rest ∨
        (d.take 1 = [' '] ∧
          processList pt acc (Node.text d :: rest) =
            processList pt (acc ++ d.drop 1) rest)) ∧
    (pt ≠ some "pre" →
      processList pt acc (Node.text d :: rest) =
          processList pt (acc ++ collapseWs d) rest ∨
        ((collapseWs d).take 1 = [' '] ∧
          processList pt acc (Node.text d :: rest) =
            processList pt (acc ++ (collapseWs d).drop 1) rest)) := by
  constructor
  · intro hpt
    rw [processList_cons, processNode_text, emitText_eq, if_pos hpt]
    rcases emitChunk_cases acc d with h | ⟨h1, h2⟩
    · exact Or.inl (by rw [h])
    · exact Or.inr ⟨h1, by rw [h2]⟩
  · intro hpt
    rw [processList_cons, processNode_text, emitText_eq, if_neg hpt]
    rcases emitChunk_cases acc (collapseWs d) with h | ⟨h1, h2⟩
    · exact Or.inl (by rw [h])
    · exact Or.inr ⟨h1, by rw [h2]⟩

/-- C3 amended, witness: the `pre` branch applied at a concrete input. -/
theorem pre_text_verbatim_others_collapsed_witness :
    processList (some "pre") ['a'] [Node.text ['x']] =
        processList (some "pre") (['a'] ++ ['x']) [] ∨
      ((['x'] : List Char).take 1 = [' '] ∧
        processList (some "pre") ['a'] [Node.text ['x']] =
          processList (some "pre") (['a'] ++ (['x'] : List Char).drop 1) []) :=
  (pre_text_verbatim_others_collapsed (some "pre") ['a'] ['x'] []).1 rfl

/-- The tail of the scheme regex after its leading letter: some run of
scheme characters followed by a colon. -/
theorem schemeTail_iff (l : List Char) :
    schemeTail l = true ↔
      ∃ mid rest, l = mid ++ ':' :: rest ∧
        ∀ x ∈ mid, ('a' ≤ x ∧ x ≤ 'z') ∨ ('0' ≤ x ∧ x ≤ '9') ∨
          x = '+' ∨ x = '.' ∨ x = '-' := by
  induction l with
  | nil => simp [schemeTail]
  | cons c t ih =>
    rw [schemeTail]
    simp only [Bool.or_eq_true, Bool.and_eq_true, decide_eq_true_eq, ih]
    constructor
    · rintro (rfl | ⟨hc, mid, rest, rfl, hmid⟩)
      · exact ⟨[], t, rfl, by simp⟩
      · refine ⟨c :: mid, rest, rfl, ?_⟩
        intro x hx
        rcases List.mem_cons.mp hx with rfl | hx
        · tauto
        · exact hmid x hx
    · rintro ⟨mid, rest, heq, hmid⟩
      cases mid with
      | nil =>
        simp only [List.nil_append, List.cons.injEq] at heq
        exact Or.inl heq.1
      | cons m ms =>
        simp only [List.cons_append, List.cons.injEq] at heq
        obtain ⟨hcm, ht⟩ := heq
        subst hcm
        refine Or.inr ⟨?_, ms, rest, ht,
          fun x hx => hmid x (List.mem_cons_of_mem _ hx)⟩
        have h0 := hmid c (List.mem_cons_self _ _)
        tauto

/-- C7 counterexample: the href `"A:"` begins with a letter followed
directly by a colon, yet the source's check classifies it as not absolute —
the regex `/^[a-z][a-z0-9+.-]*:/` has no `i` flag, so an uppercase scheme
letter is rejected. -/
theorem scheme_check_is_case_sensitive :
    isHrefAbsoluteL ['A', ':'] = false ∧ SchemePrefixed ['A', ':'] :=
  ⟨by decide, ⟨'A', [], [], rfl, Or.inr ⟨by decide, by decide⟩, by simp⟩⟩

/-- C7 amended: an href is classified as absolute iff it begins with a
*lowercase* letter, followed by zero or more lowercase letters, digits,
'+', '.' or '-' characters, followed by ':' — the check is case-sensitive,
so a scheme containing an uppercase letter does not count as absolute. -/
theorem isHrefAbsolute_iff_lower_scheme (s : List Char) :
    isHrefAbsoluteL s = true ↔ SchemePrefixedLower s := by
  cases s with
  | nil =>
    simp only [isHrefAbsoluteL, SchemePrefixedLower]
    simp
  | cons c t =>
    rw [isHrefAbsoluteL]
    simp only [Bool.and_eq_true, decide_eq_true_eq, schemeTail_iff,
      SchemePrefixedLower]
    constructor
    · rintro ⟨⟨h1, h2⟩, mid, rest, rfl, hmid⟩
      exact ⟨c, mid, rest, rfl, ⟨h1, h2⟩, hmid⟩
    · rintro ⟨c', mid, rest, heq, hc, hmid⟩
      rw [List.cons.injEq] at heq
      exact ⟨heq.1 ▸ hc, mid, rest, heq.2, hmid⟩

theorem tryAbsoluteURL_of_absolute (u b : String)
    (h : isHrefAbsolute u = true) : tryAbsoluteURL u b = some u := by
  simp [tryAbsoluteURL, h]

theorem resolveHref_of_absolute (b h : String)
    (habs : isHrefAbsolute h = true) : resolveHref b h = .ok (some h) := by
  rw [resolveHref, if_neg (by simp [habs])]
  by_cases hb : b = ""
  · simp [hb]
  · simp [hb, tryAbsoluteURL_of_absolute _ _ habs]

theorem collectHrefs_filter_presentNonEmpty (hs : List (Option String)) :
    collectHrefs (hs.filter presentNonEmpty) = collectHrefs hs := by
  induction hs with
  | nil => rfl
  | cons o t ih =>
    cases o with
    | none => simpa [collectHrefs, presentNonEmpty, List.filter_cons] using ih
    | some h =>
      by_cases hh : h = ""
      · subst hh
        simpa [collectHrefs, presentNonEmpty, List.filter_cons] using ih
      · unfold collectHrefs at ih ⊢
        simp only [List.filter_cons, presentNonEmpty]
        simp [hh, ih]

theorem collectHrefs_of_all_empty (hs : List (Option String))
    (h : ∀ o ∈ hs, o = none ∨ o = some "") : collectHrefs hs = [] := by
  induction hs with
  | nil => rfl
  | cons o t ih =>
    have ht := ih fun x hx => h x (List.mem_cons_of_mem o hx)
    rcases h o (List.mem_cons_self o t) with rfl | rfl
    · simpa [collectHrefs, List.filterMap_cons] using ht
    · simpa [collectHrefs, List.filterMap_cons] using ht

theorem mem_collectHrefs (hs : List (Option String)) (h : String)
    (hmem : some h ∈ hs) (hne : h ≠ "") : h ∈ collectHrefs hs := by
  unfold collectHrefs
  refine List.mem_filter.mpr ⟨?_, by simpa using hne⟩
  exact List.mem_filterMap.mpr ⟨some h, hmem, rfl⟩

theorem resolveAll_ok_mem (b : String) (l : List String)
    (rs : List (Option String)) (hok : resolveAll b l = .ok rs) (h : String)
    (hmem : h ∈ l) (habs : isHrefAbsolute h = true) : some h ∈ rs := by
  induction l generalizing rs with
  | nil => cases hmem
  | cons h0 t ih =>
    rw [resolveAll] at hok
    rcases List.mem_cons.mp hmem with rfl | hmem
    · rw [resolveHref_of_absolute _ _ habs] at hok
      cases hrest : resolveAll b t with
      | error e => rw [hrest] at hok; cases hok
      | ok rs' =>
        rw [hrest] at hok
        cases hok
        exact List.mem_cons_self _ _
    · cases hhead : resolveHref b h0 with
      | error e => rw [hhead] at hok; cases hok
      | ok r =>
        rw [hhead] at hok
        cases hrest : resolveAll b t with
        | error e => rw [hrest] at hok; cases hok
        | ok rs' =>
          rw [hrest] at hok
          cases hok
          exact List.mem_cons_of_mem _ (ih rs' hrest hmem)

/-- With no base URL in effect, the first relative href in the collected
list aborts the eager `.map` with the relative-URL error. -/
theorem resolveAll_empty_base (l : List String)
    (hex : ∃ h ∈ l, isHrefAbsolute h = false) :
    ∃ h ∈ l, isHrefAbsolute h = false ∧
      resolveAll "" l = .error (relativeUrlError h) := by
  induction l with
  | nil => simp at hex
  | cons h0 t ih =>
    cases habs : isHrefAbsolute h0 with
    | false =>
      refine ⟨h0, List.mem_cons_self _ _, habs, ?_⟩
      rw [resolveAll, resolveHref, if_pos (by simp [habs])]
    | true =>
      have hext : ∃ h ∈ t, isHrefAbsolute h = false := by
        obtain ⟨h, hm, hf⟩ := hex
        rcases List.mem_cons.mp hm with rfl | hm
        · rw [habs] at hf; cases hf
        · exact ⟨h, hm, hf⟩
      obtain ⟨h, hm, hf, herr⟩ := ih hext
      refine ⟨h, List.mem_cons_of_mem _ hm, hf, ?_⟩
      rw [resolveAll, resolveHref_of_absolute _ _ habs, herr]

/-- C9: elements whose `href` attribute is missing or empty are discarded
by `filter(Boolean)` before the absolute-URL check runs — removing them
from the matched list never changes the result — so they can never trigger
the relative-URL error; in particular, when no matched element carries a
non-empty href the call returns the empty sequence without raising, even
with an empty base URL. -/
theorem hrefless_elements_never_error :
    (∀ (bh : Option String) (hs : List (Option String)) (b : String),
      extractUrlsFromCheerio bh hs b =
        extractUrlsFromCheerio bh (hs.filter presentNonEmpty) b) ∧
    (∀ (bh : Option String) (hs : List (Option String)) (b : String),
      (∀ o ∈ hs, o = none ∨ o = some "") →
        extractUrlsFromCheerio bh hs b = .ok []) := by
  constructor
  · intro bh hs b
    simp only [extractUrlsFromCheerio]
    rw [collectHrefs_filter_presentNonEmpty]
  · intro bh hs b h
    simp only [extractUrlsFromCheerio]
    rw [collectHrefs_of_all_empty hs h]
    simp [resolveAll]

/-- C9 witness: a document whose matched elements have only a missing and
an empty href returns the empty sequence with no base URL set. -/
theorem hrefless_elements_never_error_witness :
    extractUrlsFromCheerio none [none, some ""] "" = .ok [] :=
  hrefless_elements_never_error.2 none [none, some ""] "" (by decide)

/-- C2: when the effective base URL (after the base-element override) is
empty and some collected href is not absolute, the whole call fails with
the relative-URL error naming the first such href: the result is an
`error`, not a sequence, so no partial list of earlier links is returned. -/
theorem relative_href_without_base_aborts (bh : Option String)
    (hs : List (Option String)) (b : String)
    (hbase : effectiveBaseUrl bh b = "")
    (hex : ∃ h ∈ collectHrefs hs, isHrefAbsolute h = false) :
    ∃ h ∈ collectHrefs hs, isHrefAbsolute h = false ∧
      extractUrlsFromCheerio bh hs b = .error (relativeUrlError h) := by
  obtain ⟨h, hm, hf, herr⟩ := resolveAll_empty_base _ hex
  refine ⟨h, hm, hf, ?_⟩
  simp only [extractUrlsFromCheerio]
  rw [hbase, herr]

/-- C2 witness: one anchor with `href="/x"`, no `base` element and an empty
base URL. -/
theorem relative_href_without_base_aborts_witness :
    ∃ h ∈ collectHrefs [some "/x"], isHrefAbsolute h = false ∧
      extractUrlsFromCheerio none [some "/x"] "" =
        .error (relativeUrlError h) :=
  relative_href_without_base_aborts none [some "/x"] "" (by decide)
    ⟨"/x", by decide, by decide⟩

/-- C1: a matched element whose (non-empty) href is already absolute
contributes that href to the successful result unchanged — whatever the
supplied base URL and whatever base-element override is in effect, the
resolution step maps an absolute href to itself. -/
theorem absolute_hrefs_pass_through (bh : Option String)
    (hs : List (Option String)) (b : String) (out : List String)
    (hok : extractUrlsFromCheerio bh hs b = .ok out) (h : String)
    (hmem : some h ∈ hs) (hne : h ≠ "") (habs : isHrefAbsolute h = true) :
    h ∈ out := by
  have hc : h ∈ collectHrefs hs := mem_collectHrefs hs h hmem hne
  simp only [extractUrlsFromCheerio] at hok
  cases hres : resolveAll (effectiveBaseUrl bh b) (collectHrefs hs) with
  | error e => rw [hres] at hok; cases hok
  | ok rs =>
    rw [hres] at hok
    cases hok
    have hin : some h ∈ rs := resolveAll_ok_mem _ _ _ hres h hc habs
    refine List.mem_filter.mpr ⟨?_, by simpa using hne⟩
    exact List.mem_filterMap.mpr ⟨some h, hin, rfl⟩

/-- C1 witness: an absolute `mailto:` href with a non-empty base URL. -/
theorem absolute_hrefs_pass_through_witness :
    extractUrlsFromCheerio none [some "mailto:a@b.com"] "https://e.com/" =
        .ok ["mailto:a@b.com"] ∧
      "mailto:a@b.com" ∈ ["mailto:a@b.com"] :=
  ⟨by rfl,
    absolute_hrefs_pass_through none [some "mailto:a@b.com"] "https://e.com/"
      ["mailto:a@b.com"] (by rfl) "mailto:a@b.com" (by decide) (by decide)
      (by decide)⟩

/-- C8: a `base` element with a non-empty href: when resolving it against
the supplied base URL yields a (non-empty) value `r`, the call behaves
exactly as a call with base URL `r` and no `base` element — `r` is the
effective base for every per-link resolution; when the resolution yields no
value, the call behaves exactly as one without the `base` element: the
supplied base URL stands and the call does not fail on that account. -/
theorem base_element_override (b0 : String) (hs : List (Option String))
    (baseUrl : String) (hb : b0 ≠ "") :
    (∀ r, tryAbsoluteURL b0 baseUrl = some r → r ≠ "" →
      extractUrlsFromCheerio (some b0) hs baseUrl =
        extractUrlsFromCheerio none hs r) ∧
    (tryAbsoluteURL b0 baseUrl = none →
      extractUrlsFromCheerio (some b0) hs baseUrl =
        extractUrlsFromCheerio none hs baseUrl) := by
  constructor
  · intro r hr hrne
    simp only [extractUrlsFromCheerio]
    have : effectiveBaseUrl (some b0) baseUrl = r := by
      simp [effectiveBaseUrl, hb, hr, hrne]
    rw [this]
    rfl
  · intro hr
    simp only [extractUrlsFromCheerio]
    have : effectiveBaseUrl (some b0) baseUrl = baseUrl := by
      simp [effectiveBaseUrl, hb, hr]
    rw [this]
    rfl

/-- C8 witness: `<base href="https://other.com/">` with an empty supplied
base URL: the override takes effect and the relative link resolves against
it instead of failing. -/
theorem base_element_override_witness :
    tryAbsoluteURL "https://other.com/" "" = some "https://other.com/" ∧
      extractUrlsFromCheerio (some "https://other.com/") [some "/x"] "" =
        extractUrlsFromCheerio none [some "/x"] "https://other.com/" :=
  ⟨by decide,
    (base_element_override "https://other.com/" [some "/x"] "" (by decide)).1
      "https://other.com/" (by decide) (by decide)⟩

theorem collapseWs_ws_eq_space (l : List Char) :
    ∀ c ∈ collapseWs l, isWsC c = true → c = ' ' := by
  induction l using collapseWs.induct with
  | case1 => simp [collapseWs]
  | case2 c hc => simp [collapseWs, hc]
  | case3 c hc =>
    intro x hx hw
    rw [collapseWs, if_neg (by simp [hc])] at hx
    rcases List.mem_singleton.mp hx with rfl
    exact absurd hw (by simp [hc])
  | case4 c1 c2 t h ih =>
    intro x hx hw
    rw [collapseWs, if_pos h] at hx
    exact ih x hx hw
  | case5 c1 c2 t h ih =>
    intro x hx hw
    rw [collapseWs, if_neg h] at hx
    rcases List.mem_cons.mp hx with rfl | hx
    · by_cases h1 : isWsC c1 = true
      · simp [h1]
      · rw [if_neg h1] at hw ⊢
        exact absurd hw h1
    · exact ih x hx hw

theorem no_nl_of_mem_collapseWs (d : List Char) :
    ∀ c ∈ collapseWs d, c ≠ '\n' := by
  intro c hc hnl
  subst hnl
  have := collapseWs_ws_eq_space d '\n' hc (by decide)
  exact absurd this (by decide)

theorem hasNN_of_no_nl (l : List Char) (h : ∀ c ∈ l, c ≠ '\n') :
    hasNN l = false := by
  induction l using hasNN.induct with
  | case1 => rfl
  | case2 c => rfl
  | case3 x y t ih =>
    have hx : x ≠ '\n' := h x (by simp)
    rw [hasNN]
    simp only [Bool.or_eq_false_iff]
    refine ⟨by simp [hx], ih fun c hc => h c (List.mem_cons_of_mem x hc)⟩

theorem headNl_of_no_nl (l : List Char) (h : ∀ c ∈ l, c ≠ '\n') :
    headNl l = false := by
  cases l with
  | nil => rfl
  | cons c t => simp [headNl, h c (by simp)]

theorem hasNN_append (a b : List Char) :
    hasNN (a ++ b) = (hasNN a || hasNN b || (endsNl a && headNl b)) := by
  induction a using hasNN.induct with
  | case1 => simp [hasNN, endsNl]
  | case2 x =>
    cases b with
    | nil => simp [hasNN, headNl, endsNl]
    | cons y b' =>
      show hasNN (x :: y :: b') = _
      rw [hasNN]
      simp only [hasNN, endsNl, headNl, List.getLast?_singleton,
        Bool.false_or]
      rw [Bool.or_comm]
  | case3 x y t ih =>
    rw [List.cons_append, List.cons_append, hasNN]
    rw [List.cons_append] at ih
    rw [ih, hasNN]
    have : endsNl (x :: y :: t) = endsNl (y :: t) := by
      simp [endsNl, List.getLast?_cons_cons]
    rw [this]
    simp [Bool.or_assoc]

theorem endsNl_reverse (l : List Char) : endsNl l.reverse = headNl l := by
  rw [endsNl, List.getLast?_reverse]
  cases l with
  | nil => rfl
  | cons c t => simp [headNl]

theorem hasNN_reverse (l : List Char) : hasNN l.reverse = hasNN l := by
  induction l with
  | nil => rfl
  | cons x l ih =>
    rw [List.reverse_cons, hasNN_append, ih, endsNl_reverse]
    cases l with
    | nil => simp [hasNN, headNl]
    | cons y t =>
      rw [hasNN]
      simp only [hasNN, headNl, Bool.or_false]
      rw [Bool.or_comm, Bool.and_comm]

theorem hasNN_suffix (l1 l2 : List Char) (h : l1 <:+ l2)
    (h2 : hasNN l2 = false) : hasNN l1 = false := by
  obtain ⟨t, rfl⟩ := h
  rw [hasNN_append] at h2
  simp only [Bool.or_eq_false_iff] at h2
  exact h2.1.2

theorem hasNN_trimWs (s : List Char) (h : hasNN s = false) :
    hasNN (trimWs s) = false := by
  rw [trimWs, hasNN_reverse]
  refine hasNN_suffix _ _ (List.dropWhile_suffix _) ?_
  rw [hasNN_reverse]
  exact hasNN_suffix _ _ (List.dropWhile_suffix _) h

theorem endsNl_of_not_endsNlOrEmpty (acc : List Char)
    (h : endsNlOrEmpty acc = false) : endsNl acc = false := by
  rw [endsNlOrEmpty] at h
  rw [endsNl]
  cases hl : acc.getLast? with
  | none => rfl
  | some c => rw [hl] at h; exact h

/-- The else-branch of `processNode` for an element that is neither
skipped nor a `br` nor a `td`, with the two `let`s spelled out. -/
theorem processNode_elem_eq (pt : Option String) (acc : List Char)
    (tag : String) (children : List Node) (hskip : isSkipTag tag = false)
    (hbr : tag ≠ "br") (htd : tag ≠ "td") :
    processNode pt acc (.elem tag children) =
      (if isBlockTag tag && !endsNl (processList (some tag)
            (if isBlockTag tag && !endsNlOrEmpty acc then acc ++ ['\n']
             else acc) children)
       then processList (some tag)
            (if isBlockTag tag && !endsNlOrEmpty acc then acc ++ ['\n']
             else acc) children ++ ['\n']
       else processList (some tag)
            (if isBlockTag tag && !endsNlOrEmpty acc then acc ++ ['\n']
             else acc) children) := by
  rw [processNode]
  rw [if_neg (by simp [hskip]), if_neg hbr, if_neg htd]

/-- The no-double-newline invariant is preserved by the else-branch of the
element dispatch: both boundary newlines are guarded by an
ends-in-newline check. -/
theorem elem_else_case (pt : Option String) (acc : List Char) (tag : String)
    (children : List Node) (hskip : isSkipTag tag = false)
    (hbr : tag ≠ "br") (htd : tag ≠ "td")
    (ih : hasNN (if isBlockTag tag && !endsNlOrEmpty acc then acc ++ ['\n']
          else acc) = false →
      (some tag = some "pre" → False) → allTagsL noPreTag children = true →
      allTagsL noBrTag children = true →
      hasNN (processList (some tag)
        (if isBlockTag tag && !endsNlOrEmpty acc then acc ++ ['\n'] else acc)
        children) = false)
    (hacc : hasNN acc = false)
    (hpre : allTagsN noPreTag (Node.elem tag children) = true)
    (hbrl : allTagsN noBrTag (Node.elem tag children) = true) :
    hasNN (processNode pt acc (Node.elem tag children)) = false := by
  rw [allTagsN] at hpre hbrl
  simp only [Bool.and_eq_true] at hpre hbrl
  have hpt2 : some tag = some "pre" → False := by
    intro he
    injection he with he
    subst he
    exact absurd hpre.1 (by decide)
  have hacc1 : hasNN (if isBlockTag tag && !endsNlOrEmpty acc
      then acc ++ ['\n'] else acc) = false := by
    by_cases hc : (isBlockTag tag && !endsNlOrEmpty acc) = true
    · rw [if_pos hc, hasNN_append]
      simp only [Bool.and_eq_true, Bool.not_eq_true'] at hc
      simp [hacc, hasNN, headNl, endsNl_of_not_endsNlOrEmpty acc hc.2]
    · rw [if_neg hc]
      exact hacc
  have hacc2 := ih hacc1 hpt2 hpre.2 hbrl.2
  rw [processNode_elem_eq pt acc tag children hskip hbr htd]
  by_cases hc2 : (isBlockTag tag && !endsNl (processList (some tag)
      (if isBlockTag tag && !endsNlOrEmpty acc then acc ++ ['\n'] else acc)
      children)) = true
  · rw [if_pos hc2, hasNN_append, hacc2]
    have h3 := hc2
    rw [Bool.and_eq_true] at h3
    rw [Bool.not_eq_true'] at h3
    rw [h3.2]
    rfl
  · rw [if_neg hc2]
    exact hacc2

/-- The traversal never introduces two consecutive newlines when the tree
has no `pre` and no `br` elements: every text chunk it appends is
newline-free, and both block-boundary branches append a newline only when
the accumulated text does not already end in one. -/
theorem processList_preserves_no_hasNN :
    ∀ (pt : Option String) (acc : List Char) (ns : List Node),
      hasNN acc = false → (pt = some "pre" → False) →
      allTagsL noPreTag ns = true → allTagsL noBrTag ns = true →
      hasNN (processList pt acc ns) = false := by
  refine processList.induct
    (fun pt acc n => hasNN acc = false → (pt = some "pre" → False) →
      allTagsN noPreTag n = true → allTagsN noBrTag n = true →
      hasNN (processNode pt acc n) = false)
    (fun pt acc ns => hasNN acc = false → (pt = some "pre" → False) →
      allTagsL noPreTag ns = true → allTagsL noBrTag ns = true →
      hasNN (processList pt acc ns) = false)
    ?_ ?_ ?_ ?_ ?_ ?_ ?_ ?_ ?_
  · -- text node
    intro pt acc d hacc hpt _ _
    rw [processNode_text, emitText_eq, if_neg (fun he => hpt he)]
    have hnl : ∀ c ∈ collapseWs d, c ≠ '\n' := no_nl_of_mem_collapseWs d
    rcases emitChunk_cases acc (collapseWs d) with he | ⟨_, he⟩ <;> rw [he] <;>
      rw [hasNN_append]
    · simp [hacc, hasNN_of_no_nl _ hnl, headNl_of_no_nl _ hnl]
    · have hnl2 : ∀ c ∈ (collapseWs d).drop 1, c ≠ '\n' :=
        fun c hc => hnl c (List.mem_of_mem_drop hc)
      have g1 := hasNN_of_no_nl _ hnl2
      have g2 := headNl_of_no_nl _ hnl2
      rw [List.drop_one] at g1 g2
      simp [hacc, g1, g2]
  · -- comment node
    intro pt acc _ hacc _ _ _
    simpa [processNode] using hacc
  · -- skipped element
    intro pt acc tag children hskip hacc _ _ _
    simpa [processNode, hskip] using hacc
  · -- br element: excluded by hypothesis
    intro pt acc children _ _ _ _ hbr
    rw [allTagsN] at hbr
    simp only [Bool.and_eq_true] at hbr
    exact absurd hbr.1 (by decide)
  · -- td element
    intro pt acc children hskip _ ih hacc _ hpre hbr
    rw [allTagsN] at hpre hbr
    simp only [Bool.and_eq_true] at hpre hbr
    have h2 := ih hacc (by simp) hpre.2 hbr.2
    rw [processNode, if_neg (by simp [hskip]), if_neg (by decide),
      if_pos rfl, hasNN_append]
    simp [h2, headNl, hasNN]
  · -- block/inline element, trailing newline appended
    intro pt acc tag children hskip hbr htd isBlock acc1 acc2 hcond ih hacc
      hpt hpre hbrl
    exact elem_else_case pt acc tag children
      (by simpa using hskip) hbr htd ih hacc hpre hbrl
  · -- block/inline element, no trailing newline
    intro pt acc tag children hskip hbr htd isBlock acc1 acc2 hcond ih hacc
      hpt hpre hbrl
    exact elem_else_case pt acc tag children
      (by simpa using hskip) hbr htd ih hacc hpre hbrl
  · -- empty list
    intro pt acc hacc _ _ _
    simpa [processList] using hacc
  · -- cons
    intro pt acc n rest ih1 ih2 hacc hpt hpre hbr
    rw [allTagsL] at hpre hbr
    simp only [Bool.and_eq_true] at hpre hbr
    rw [processList_cons]
    exact ih2 (ih1 hacc hpt hpre.1 hbr.1) hpt hpre.2 hbr.2

/-- C5: for a document with no `pre` elements, no `br` elements, and no
text node whose collapsed content still contains a line break, the output
of `htmlToText` never contains two consecutive line-break characters: the
block-boundary newline insertions before and after nested block elements
are collapsed to a single newline. -/
theorem nested_blocks_never_double_newline (roots : List Node)
    (hpre : allTagsL noPreTag roots = true)
    (hbr : allTagsL noBrTag roots = true)
    (htext : allTextL (fun d => !containsSeq ['\n'] (collapseWs d)) roots
      = true) :
    hasNN (htmlToText roots) = false := by
  rw [htmlToText]
  refine hasNN_trimWs _ ?_
  exact processList_preserves_no_hasNN none [] roots rfl (by simp) hpre hbr

/-- C5 witness: nested `div`s around a paragraph produce single newlines
only. -/
theorem nested_blocks_never_double_newline_witness :
    hasNN (htmlToText [Node.elem "div" [Node.elem "div"
      [Node.text ['a', ' ', 'b']], Node.elem "p" [Node.text ['c']]]])
      = false :=
  nested_blocks_never_double_newline _ (by decide) (by decide) (by decide)

theorem wsMerge_nil_left (y : List Char) : wsMerge [] y = y := by
  rw [wsMerge]
  simp [endsSpace]

theorem wsMerge_nil_right (x : List Char) : wsMerge x [] = x := by
  rw [wsMerge]
  simp

theorem endsSpace_cons (c : Char) (t : List Char) (h : t ≠ []) :
    endsSpace (c :: t) = endsSpace t := by
  rw [endsSpace, endsSpace]
  obtain ⟨b, L, rfl⟩ := List.exists_cons_of_ne_nil h
  rw [List.getLast?_cons_cons]

theorem endsSpace_append (x y : List Char) (h : y ≠ []) :
    endsSpace (x ++ y) = endsSpace y := by
  rw [endsSpace, endsSpace, List.getLast?_append_of_ne_nil x h]

theorem wsMerge_cons_left (a : Char) (X y : List Char) (h : X ≠ []) :
    wsMerge (a :: X) y = a :: wsMerge X y := by
  rw [wsMerge, wsMerge, endsSpace_cons a X h, List.cons_append]

theorem collapseWs_ne_nil (l : List Char) (h : l ≠ []) :
    collapseWs l ≠ [] := by
  induction l using collapseWs.induct with
  | case1 => exact absurd rfl h
  | case2 c hc => rw [collapseWs]; simp [hc]
  | case3 c hc => rw [collapseWs]; simp [hc]
  | case4 c1 c2 t hw ih => rw [collapseWs, if_pos hw]; exact ih (by simp)
  | case5 c1 c2 t hw ih => rw [collapseWs, if_neg hw]; simp

theorem collapseWs_head (d : Char) (t : List Char) :
    ∃ r, collapseWs (d :: t) = (if isWsC d then ' ' else d) :: r := by
  induction t using collapseWs.induct generalizing d with
  | case1 => exact ⟨[], by rw [collapseWs]; split <;> rfl⟩
  | case2 c hc =>
    by_cases hd : isWsC d = true
    · exact ⟨[], by rw [collapseWs, if_pos (by simp [hc, hd]), collapseWs,
        if_pos hc, if_pos hd]⟩
    · exact ⟨[' '], by rw [collapseWs, if_neg (by simp [hd]), collapseWs,
        if_pos hc, if_neg hd]⟩
  | case3 c hc =>
    refine ⟨[c], ?_⟩
    rw [collapseWs, if_neg (by simp [hc]), collapseWs, if_neg hc]
  | case4 c1 c2 t hw ih =>
    simp only [Bool.and_eq_true] at hw
    by_cases hd : isWsC d = true
    · obtain ⟨r, hr⟩ := ih c1
      refine ⟨r, ?_⟩
      rw [collapseWs, if_pos (by simp [hd, hw.1]), hr, if_pos hw.1,
        if_pos hd]
    · obtain ⟨r, hr⟩ := ih c1
      refine ⟨(if isWsC c1 then ' ' else c1) :: r, ?_⟩
      rw [collapseWs, if_neg (by simp [hd]), hr, if_neg hd]
  | case5 c1 c2 t hw ih =>
    by_cases hd : isWsC d = true
    · by_cases h1 : isWsC c1 = true
      · obtain ⟨r, hr⟩ := ih c1
        refine ⟨r, ?_⟩
        rw [collapseWs, if_pos (by simp [hd, h1]), hr, if_pos h1, if_pos hd]
      · obtain ⟨r, hr⟩ := ih c1
        refine ⟨(if isWsC c1 then ' ' else c1) :: r, ?_⟩
        rw [collapseWs, if_neg (by simp [h1]), hr, if_pos hd]
    · obtain ⟨r, hr⟩ := ih c1
      refine ⟨(if isWsC c1 then ' ' else c1) :: r, ?_⟩
      rw [collapseWs, if_neg (by simp [hd]), hr, if_neg hd]

theorem spacesOnly_collapseWs (d : List Char) :
    spacesOnly (collapseWs d) = true := by
  rw [spacesOnly, List.all_eq_true]
  intro c hc
  by_cases hw : isWsC c = true
  · have := collapseWs_ws_eq_space d c hc hw
    simp [this]
  · simp [hw]

theorem spacesOnly_append (a b : List Char) :
    spacesOnly (a ++ b) = (spacesOnly a && spacesOnly b) := by
  rw [spacesOnly, spacesOnly, spacesOnly, List.all_append]

theorem spacesOnly_drop (l : List Char) (n : Nat)
    (h : spacesOnly l = true) : spacesOnly (l.drop n) = true := by
  rw [spacesOnly, List.all_eq_true] at h ⊢
  exact fun c hc => h c (List.mem_of_mem_drop hc)

theorem spacesOnly_tail (c : Char) (l : List Char)
    (h : spacesOnly (c :: l) = true) : spacesOnly l = true := by
  rw [spacesOnly, List.all_eq_true] at h ⊢
  exact fun x hx => h x (List.mem_cons_of_mem c hx)

theorem spacesOnly_emitChunk (a c : List Char) (ha : spacesOnly a = true)
    (hc : spacesOnly c = true) : spacesOnly (emitChunk a c) = true := by
  rw [emitChunk]
  by_cases h : (c.take 1 = [' ']) ∧ endsWsOrEmpty a = true
  · rw [if_pos (by simp [h.1, h.2]), spacesOnly_append, ha]
    simpa using spacesOnly_drop c 1 hc
  · have hcond : ¬ ((c.take 1 = [' '] : Bool) && endsWsOrEmpty a) = true := by
      simp only [Bool.and_eq_true, decide_eq_true_eq]
      exact fun hx => h ⟨hx.1, hx.2⟩
    rw [if_neg hcond, spacesOnly_append, ha, hc]
    rfl

theorem spacesOnly_wsMerge (a c : List Char) (ha : spacesOnly a = true)
    (hc : spacesOnly c = true) : spacesOnly (wsMerge a c) = true := by
  rw [wsMerge, spacesOnly_append, ha]
  by_cases h : (endsSpace a && c.take 1 = [' ']) = true
  · rw [if_pos h]
    simpa using spacesOnly_drop c 1 hc
  · rw [if_neg h, hc]
    rfl

theorem endsWsOrEmpty_eq_endsSpace (a : List Char)
    (ha : spacesOnly a = true) (hne : a ≠ []) :
    endsWsOrEmpty a = endsSpace a := by
  rw [endsWsOrEmpty, endsSpace]
  cases hl : a.getLast? with
  | none => exact absurd (List.getLast?_eq_none_iff.mp hl) hne
  | some c =>
    have hmem : c ∈ a := by
      rw [List.getLast?_eq_getLast a hne] at hl
      injection hl with hl
      rw [← hl]
      exact List.getLast_mem hne
    rw [spacesOnly, List.all_eq_true] at ha
    have hc := ha c hmem
    show isWsC c = decide (c = ' ')
    by_cases hw : isWsC c = true
    · simp only [hw, Bool.not_true, Bool.false_or, decide_eq_true_eq] at hc
      subst hc
      decide
    · have hcne : c ≠ ' ' := fun he => hw (by rw [he]; decide)
      simp [hw, hcne]

theorem emitChunk_eq_wsMerge (a c : List Char) (ha : spacesOnly a = true)
    (hne : a ≠ []) : emitChunk a c = wsMerge a c := by
  rw [emitChunk, wsMerge, endsWsOrEmpty_eq_endsSpace a ha hne, Bool.and_comm]

theorem take_one_cons (d : Char) (l : List Char) : (d :: l).take 1 = [d] := by
  rw [List.take_succ_cons, List.take_zero]

/-- Merging onto a space-ending left part fuses the right part's leading
space. -/
theorem wsMerge_space (x Y : List Char) (hx : endsSpace x = true) :
    wsMerge x (' ' :: Y) = x ++ Y := by
  have hc : (endsSpace x && ((' ' :: Y).take 1 = [' '] : Bool)) = true := by
    rw [hx, take_one_cons]
    simp
  rw [wsMerge, if_pos hc, List.drop_one, List.tail_cons]

/-- Without a space boundary, merging is plain append. -/
theorem wsMerge_not_space (x : List Char) (d : Char) (Y : List Char)
    (h : ¬(endsSpace x = true ∧ d = ' ')) :
    wsMerge x (d :: Y) = x ++ (d :: Y) := by
  have hc : ¬(endsSpace x && ((d :: Y).take 1 = [' '] : Bool)) = true := by
    rw [Bool.and_eq_true, take_one_cons]
    intro hcc
    exact h ⟨hcc.1, by simpa using hcc.2⟩
  rw [wsMerge, if_neg hc]

theorem wsMerge_assoc (x y z : List Char) :
    wsMerge (wsMerge x y) z = wsMerge x (wsMerge y z) := by
  cases y with
  | nil => rw [wsMerge_nil_right, wsMerge_nil_left]
  | cons d t =>
    cases z with
    | nil => rw [wsMerge_nil_right, wsMerge_nil_right]
    | cons e u =>
      by_cases hS : endsSpace x = true ∧ d = ' '
      · obtain ⟨hx, rfl⟩ := hS
        cases t with
        | nil =>
          rw [wsMerge_space x [] hx, List.append_nil]
          by_cases he : e = ' '
          · subst he
            rw [wsMerge_space [' '] u (by decide), List.singleton_append]
          · rw [wsMerge_not_space [' '] e u (by simp [he]),
              List.singleton_append, wsMerge_space x (e :: u) hx,
              wsMerge_not_space x e u (by simp [he])]
        | cons t1 t2 =>
          rw [wsMerge_space x (t1 :: t2) hx,
            wsMerge_cons_left ' ' (t1 :: t2) (e :: u) (by simp),
            wsMerge_space x _ hx]
          rw [wsMerge, wsMerge, endsSpace_append x _ (by simp),
            List.append_assoc]
      · rw [wsMerge_not_space x d t hS]
        have hR : wsMerge (d :: t) (e :: u) =
            (d :: t) ++ (if endsSpace (d :: t) &&
                ((e :: u).take 1 = [' '] : Bool)
              then (e :: u).drop 1 else e :: u) := by
          rw [wsMerge]
        rw [hR, List.cons_append, wsMerge_not_space x d _ hS,
          ← List.cons_append, ← List.append_assoc]
        rw [wsMerge, endsSpace_append x _ (by simp)]

/-- `collapseWs` is a homomorphism from concatenation onto the
space-boundary merge of collapsed strings. -/
theorem collapseWs_append_eq (x y : List Char) :
    collapseWs (x ++ y) = wsMerge (collapseWs x) (collapseWs y) := by
  induction x using collapseWs.induct generalizing y with
  | case1 => rw [List.nil_append, collapseWs, wsMerge_nil_left]
  | case2 c hc =>
    cases y with
    | nil =>
      rw [List.append_nil, collapseWs, wsMerge_nil_right]
    | cons d t =>
      rw [List.singleton_append, collapseWs, if_pos hc]
      obtain ⟨r, hr⟩ := collapseWs_head d t
      rw [collapseWs, hr]
      by_cases hd : isWsC d = true
      · rw [if_pos (by simp [hc, hd]), if_pos hd,
          wsMerge_space [' '] r (by decide), List.singleton_append]
      · rw [if_neg (by simp [hd]), if_pos hc, if_neg hd,
          wsMerge_not_space [' '] d r ?_]
        · rw [List.singleton_append]
        · rintro ⟨-, rfl⟩
          exact hd (by decide)
  | case3 c hc =>
    cases y with
    | nil =>
      rw [List.append_nil, collapseWs, wsMerge_nil_right]
    | cons d t =>
      have hcond : ¬((isWsC c && isWsC d) = true) := by simp [hc]
      have hns : ¬(endsSpace [c] = true ∧
          (if isWsC d = true then ' ' else d) = ' ') := by
        rintro ⟨hsp, -⟩
        rw [endsSpace] at hsp
        simp only [List.getLast?_singleton] at hsp
        exact hc (by rw [decide_eq_true_eq] at hsp; rw [hsp]; decide)
      obtain ⟨r, hr⟩ := collapseWs_head d t
      have hL : collapseWs (c :: d :: t) = c :: collapseWs (d :: t) := by
        rw [collapseWs, if_neg hcond, if_neg hc]
      have hC : collapseWs [c] = [c] := by
        rw [collapseWs, if_neg hc]
      rw [List.singleton_append, hL, hC, hr,
        wsMerge_not_space [c] _ r hns, List.singleton_append]
  | case4 c1 c2 t hw ih =>
    rw [List.cons_append, List.cons_append, collapseWs, if_pos hw,
      ← List.cons_append, ih, collapseWs, if_pos hw]
  | case5 c1 c2 t hw ih =>
    rw [List.cons_append, List.cons_append, collapseWs, if_neg hw,
      ← List.cons_append, ih, collapseWs, if_neg hw,
      wsMerge_cons_left _ _ _ (collapseWs_ne_nil (c2 :: t) (by simp))]

theorem emitChunk_nil_acc (c : List Char) :
    emitChunk [] c = if c.take 1 = [' '] then c.drop 1 else c := by
  rw [emitChunk]
  have h0 : endsWsOrEmpty ([] : List Char) = true := rfl
  rw [h0, Bool.and_true]
  by_cases h : c.take 1 = [' ']
  · rw [if_pos (by simp [h]), if_pos h, List.nil_append]
  · rw [if_neg (by simp [h]), if_neg h, List.nil_append]

theorem emitChunk_nil_chunk (acc : List Char) : emitChunk acc [] = acc := by
  rw [emitChunk]
  have : ¬((([] : List Char).take 1 = [' '] : Bool) && endsWsOrEmpty acc)
      = true := by simp
  rw [if_neg this, List.append_nil]

/-- Emitting two chunks in sequence is emitting their space-boundary merge:
the leading-space suppression of the second emission coincides with the
merge of the boundary between the chunks. -/
theorem emitChunk_emitChunk (a u v : List Char) (ha : spacesOnly a = true)
    (hu : spacesOnly u = true) :
    emitChunk (emitChunk a u) v = emitChunk a (wsMerge u v) := by
  by_cases hane : a = []
  · subst hane
    cases u with
    | nil => rw [wsMerge_nil_left, emitChunk_nil_chunk]
    | cons d t =>
      by_cases hd : d = ' '
      · subst hd
        have h1 : emitChunk [] (' ' :: t) = t := by
          rw [emitChunk_nil_acc, if_pos (by rw [take_one_cons]),
            List.drop_one, List.tail_cons]
        rw [h1]
        cases t with
        | nil =>
          cases v with
          | nil => decide
          | cons e w =>
            by_cases he : e = ' '
            · subst he
              rw [wsMerge_space [' '] w (by decide), List.singleton_append]
            · have hL : emitChunk [] (e :: w) = e :: w := by
                rw [emitChunk_nil_acc,
                  if_neg (by rw [take_one_cons]; simp [he])]
              have hR : emitChunk [] (' ' :: e :: w) = e :: w := by
                rw [emitChunk_nil_acc, if_pos (by rw [take_one_cons]),
                  List.drop_one, List.tail_cons]
              rw [wsMerge_not_space [' '] e w (by simp [he]),
                List.singleton_append, hL, hR]
        | cons t1 t2 =>
          have hsp : spacesOnly (t1 :: t2) = true := spacesOnly_tail _ _ hu
          rw [emitChunk_eq_wsMerge _ v hsp (by simp),
            wsMerge_cons_left ' ' (t1 :: t2) v (by simp)]
          rw [emitChunk_nil_acc, if_pos (by rw [take_one_cons]),
            List.drop_one, List.tail_cons]
      · have h1 : emitChunk [] (d :: t) = d :: t := by
          rw [emitChunk_nil_acc, if_neg (by rw [take_one_cons]; simp [hd])]
        rw [h1, emitChunk_eq_wsMerge _ v hu (by simp)]
        have h2 : wsMerge (d :: t) v =
            d :: (t ++ (if endsSpace (d :: t) && (v.take 1 = [' '] : Bool)
              then v.drop 1 else v)) := by
          rw [wsMerge, List.cons_append]
        have h3 : ∀ X : List Char, emitChunk [] (d :: X) = d :: X := by
          intro X
          rw [emitChunk_nil_acc, if_neg (by rw [take_one_cons]; simp [hd])]
        rw [h2, h3, ← h2]
  · have hne2 : wsMerge a u ≠ [] := by
      rw [wsMerge]
      intro hcc
      exact hane (List.append_eq_nil.mp hcc).1
    rw [emitChunk_eq_wsMerge a u ha hane,
      emitChunk_eq_wsMerge (wsMerge a u) v (spacesOnly_wsMerge a u ha hu)
        hne2,
      emitChunk_eq_wsMerge a (wsMerge u v) ha hane]
    exact wsMerge_assoc a u v

theorem plainTag_parts (t : String) (h : plainTag t = true) :
    isBlockTag t = false ∧ isSkipTag t = false ∧ t ≠ "br" ∧ t ≠ "td" := by
  rw [plainTag, Bool.not_eq_true'] at h
  simp only [Bool.or_eq_false_iff] at h
  refine ⟨h.1.1.1, h.1.1.2, ?_, ?_⟩
  · intro he
    subst he
    exact absurd h.1.2 (by decide)
  · intro he
    subst he
    exact absurd h.2 (by decide)

/-- The no-special-branch element case of the traversal: an inline tag
neither inserts boundaries nor changes the accumulator around its
children. -/
theorem plain_elem_case (pt : Option String) (acc : List Char)
    (tag : String) (children : List Node) (hskip : isSkipTag tag = false)
    (hbr : tag ≠ "br") (htd : tag ≠ "td")
    (ih : spacesOnly (if isBlockTag tag && !endsNlOrEmpty acc
          then acc ++ ['\n'] else acc) = true →
        (some tag = some "pre" → False) →
        allTagsL plainTag children = true →
        processList (some tag)
          (if isBlockTag tag && !endsNlOrEmpty acc then acc ++ ['\n']
           else acc) children =
          emitChunk (if isBlockTag tag && !endsNlOrEmpty acc
            then acc ++ ['\n'] else acc) (collapseWs (textDataL children)))
    (hacc : spacesOnly acc = true)
    (hall : allTagsN plainTag (Node.elem tag children) = true) :
    processNode pt acc (Node.elem tag children) =
      emitChunk acc (collapseWs (textDataN (Node.elem tag children))) := by
  rw [allTagsN] at hall
  simp only [Bool.and_eq_true] at hall
  obtain ⟨hblock, -, -, -⟩ := plainTag_parts tag hall.1
  have e1 : (if isBlockTag tag && !endsNlOrEmpty acc then acc ++ ['\n']
      else acc) = acc := by
    rw [hblock]
    simp
  rw [e1] at ih
  have hpt2 : some tag = some "pre" → False := by
    intro he
    injection he with he
    subst he
    exact absurd hblock (by decide)
  have hres := ih hacc hpt2 hall.2
  rw [processNode_elem_eq pt acc tag children hskip hbr htd, e1]
  have hcond : ¬((isBlockTag tag &&
      !endsNl (processList (some tag) acc children)) = true) := by
    rw [hblock]
    simp
  rw [if_neg hcond, hres, textDataN]

/-- On a forest with only plain inline tags, the traversal emits exactly
the collapsed concatenation of the text data, one text node at a time. -/
theorem processList_eq_collapsed :
    ∀ (pt : Option String) (acc : List Char) (ns : List Node),
      spacesOnly acc = true → (pt = some "pre" → False) →
      allTagsL plainTag ns = true →
      processList pt acc ns = emitChunk acc (collapseWs (textDataL ns)) := by
  refine processList.induct
    (fun pt acc n => spacesOnly acc = true → (pt = some "pre" → False) →
      allTagsN plainTag n = true →
      processNode pt acc n = emitChunk acc (collapseWs (textDataN n)))
    (fun pt acc ns => spacesOnly acc = true → (pt = some "pre" → False) →
      allTagsL plainTag ns = true →
      processList pt acc ns = emitChunk acc (collapseWs (textDataL ns)))
    ?_ ?_ ?_ ?_ ?_ ?_ ?_ ?_ ?_
  · intro pt acc d hacc hpt _
    rw [processNode_text, emitText_eq, if_neg (fun he => hpt he), textDataN]
  · intro pt acc dd hacc _ _
    simp only [processNode, textDataN]
    rw [show collapseWs [] = [] from rfl, emitChunk_nil_chunk]
  · intro pt acc tag children hskip hacc hpt hall
    rw [allTagsN] at hall
    simp only [Bool.and_eq_true] at hall
    obtain ⟨-, hsk, -, -⟩ := plainTag_parts tag hall.1
    rw [hskip] at hsk
    cases hsk
  · intro pt acc children hns hacc hpt hall
    rw [allTagsN] at hall
    simp only [Bool.and_eq_true] at hall
    obtain ⟨-, -, hb, -⟩ := plainTag_parts "br" hall.1
    exact absurd rfl hb
  · intro pt acc children hns hnb ih hacc hpt hall
    rw [allTagsN] at hall
    simp only [Bool.and_eq_true] at hall
    obtain ⟨-, -, -, ht⟩ := plainTag_parts "td" hall.1
    exact absurd rfl ht
  · intro pt acc tag children hskip hbr htd isBlock acc1 acc2 hcond ih hacc
      hpt hall
    exact plain_elem_case pt acc tag children (by simpa using hskip) hbr htd
      ih hacc hall
  · intro pt acc tag children hskip hbr htd isBlock acc1 acc2 hcond ih hacc
      hpt hall
    exact plain_elem_case pt acc tag children (by simpa using hskip) hbr htd
      ih hacc hall
  · intro pt acc hacc _ _
    simp only [processList, textDataL]
    rw [show collapseWs [] = [] from rfl, emitChunk_nil_chunk]
  · intro pt acc n rest ih1 ih2 hacc hpt hall
    rw [allTagsL] at hall
    simp only [Bool.and_eq_true] at hall
    rw [processList_cons]
    have h1 := ih1 hacc hpt hall.1
    have hacc2 : spacesOnly (processNode pt acc n) = true := by
      rw [h1]
      exact spacesOnly_emitChunk _ _ hacc (spacesOnly_collapseWs _)
    have h2 := ih2 hacc2 hpt hall.2
    rw [h2, h1, textDataL, collapseWs_append_eq]
    exact emitChunk_emitChunk acc _ _ hacc (spacesOnly_collapseWs _)

theorem trimWs_cons_ws (c : Char) (l : List Char) (h : isWsC c = true) :
    trimWs (c :: l) = trimWs l := by
  rw [trimWs, trimWs, List.dropWhile_cons_of_pos h]

theorem trimWs_emitChunk_nil (C : List Char) :
    trimWs (emitChunk [] C) = trimWs C := by
  rw [emitChunk_nil_acc]
  cases C with
  | nil => rw [if_neg (by simp)]
  | cons c t =>
    by_cases hcsp : c = ' '
    · subst hcsp
      rw [if_pos (by rw [take_one_cons]), List.drop_one, List.tail_cons,
        trimWs_cons_ws ' ' t (by decide)]
    · rw [if_neg (by rw [take_one_cons]; simp [hcsp])]

/-- C6 counterexample: the document `<i> a<br>b</i>` contains no element of
the block set and none of the skip set, yet the output of `htmlToText` is
`"a\nb"` while the whitespace-collapsed concatenation of its text data is
`" ab"` — the `br` contributes a newline that is no text content, and the
leading space is suppressed — so the two differ. -/
theorem inline_br_breaks_text_concat :
    allTagsL (fun t => !(isBlockTag t || isSkipTag t)) inlineBrDoc = true ∧
      htmlToText inlineBrDoc ≠ collapseWs (textDataL inlineBrDoc) := by
  decide

/-- C6 amended: for a document containing no block-set, no skip-set, no
`br` and no `td` elements, the output of `htmlToText` equals the
whitespace-collapsed concatenation of the character data of all its text
nodes in document order, trimmed of leading and trailing whitespace. -/
theorem plain_inline_output_eq_collapsed_text (roots : List Node)
    (h : allTagsL plainTag roots = true) :
    htmlToText roots = trimWs (collapseWs (textDataL roots)) := by
  rw [htmlToText, processList_eq_collapsed none [] roots rfl (by simp) h,
    trimWs_emitChunk_nil]

/-- C6 amended, witness: `<i> a </i>b`. -/
theorem plain_inline_output_eq_collapsed_text_witness :
    htmlToText [Node.elem "i" [Node.text [' ', 'a', ' ']], Node.text ['b']] =
      trimWs (collapseWs (textDataL
        [Node.elem "i" [Node.text [' ', 'a', ' ']], Node.text ['b']])) :=
  plain_inline_output_eq_collapsed_text _ (by decide)

end Cheerio
